import Mathlib

/-!
Verification of the Avalon-ST bus-functional-model core of `fpga_packet_mux`:
the stream source drivers (`verif/tb/drivers/avalon_st_driver.py`), the sink
monitors (`verif/tb/monitors/avalon_st_monitor.py`) and the packet factory
(`verif/tb/utils/test_utils.py`, `verif/tb/config.py`).

The cocotb coroutines all suspend exclusively on `RisingEdge(clk)` and write
signal handles with deferred (`handle.value = x`) semantics: a value written
while processing edge `k` becomes visible to every reader at edge `k + 1`,
and a reader at edge `k` sees the values produced by edge `k - 1` (spec section 5:
"all effects of edge N are visible before edge N+1 is evaluated").  Each agent
is therefore embedded as a step function executed once per clock edge: it reads
the current signal record, updates its own state, and produces the signal
fields it owns for the next edge.  Composed simulations iterate the parallel
composition of those step functions.
-/

namespace PacketMux

/-- The per-port Avalon-ST signal bundle (data/valid/sop/eop/empty/error driven
by a source, ready driven by a sink), one record per clock edge. -/
structure Sig where
  data : Nat
  valid : Bool
  sop : Bool
  eop : Bool
  empty : Nat
  error : Bool
  ready : Bool
deriving Repr, DecidableEq

/-- A packet as handed to a driver: the argument triple
`(words, empty_last, error)` of `send_packet` / `queue_packet`. -/
structure Pkt where
  words : List Nat
  empty_last : Nat
  error : Bool
deriving Repr, DecidableEq

/-- The idle presentation written by the drivers (lines 36-41, 61-66, 174-179,
210-215 of `avalon_st_driver.py`): valid/sop/eop deasserted, empty/error zero.
`data` and `ready` are not written and keep their previous values. -/
def idleWrite (s : Sig) : Sig :=
  { s with valid := false, sop := false, eop := false, empty := 0, error := false }

/-- The word-`i` presentation written by both drivers (lines 46-52 and 193-198
of `avalon_st_driver.py`): `data = words[i]`, `empty = empty_last` on the last
word else 0, `error` replicated on every word, `sop` on word 0 only, `eop` on
word `n-1` only, `valid` asserted.  `ready` is not written. -/
def wordWrite (p : Pkt) (i : Nat) (s : Sig) : Sig :=
  { s with
    data := p.words.getD i 0
    empty := if i = p.words.length - 1 then p.empty_last else 0
    error := p.error
    sop := decide (i = 0)
    eop := decide (i = p.words.length - 1)
    valid := true }

/-- Control state of the blocking `AvalonSTSource.send_packet` coroutine, one
constructor per suspension region: `start` = idle written, first edge awaited
(line 43); `sending i` = word `i` presented, awaiting ready inside the
`while True` loop (lines 56-59); `finishing` = final idle written, awaiting the
trailing edge (line 67); `done` = coroutine returned. -/
inductive DrvState where
  | start
  | sending (i : Nat)
  | finishing
  | done
deriving Repr, DecidableEq

/-- One clock edge of `AvalonSTSource.send_packet` (lines 24-67 of
`avalon_st_driver.py`).  `r` is the value of `self.ready.value` observed on
this edge.  On resume from `start` the first word is presented (an empty word
list skips the `for` loop and goes straight to the trailing idle).  While
`sending i` the driver holds the word until `r` is observed, then presents the
next word or returns to idle after the last. -/
def drvStep (p : Pkt) (r : Bool) : DrvState × Sig → DrvState × Sig
  | (.start, s) =>
    if p.words.isEmpty then (.finishing, idleWrite s)
    else (.sending 0, wordWrite p 0 s)
  | (.sending i, s) =>
    if r then
      if i + 1 < p.words.length then (.sending (i + 1), wordWrite p (i + 1) s)
      else (.finishing, idleWrite s)
    else (.sending i, s)
  | (.finishing, s) => (.done, s)
  | (.done, s) => (.done, s)

/-- State of the plain `AvalonSTSink` monitor (`avalon_st_monitor.py` lines
24-27): collected packets, current partial packet, in-packet flag, and the
per-packet `{'empty': .., 'error': ..}` metadata records (as number pairs). -/
structure MonState where
  packets : List (List Nat)
  curPkt : List Nat
  inPkt : Bool
  metadata : List (Nat × Nat)
deriving Repr, DecidableEq

/-- Initial `AvalonSTSink` state. -/
def mon0 : MonState := ⟨[], [], false, []⟩

/-- One clock edge of `AvalonSTSink.run` (lines 39-63 of
`avalon_st_monitor.py`): on an accepted transfer (`valid && ready`), `sop`
restarts the current packet, the word is appended while in a packet, and `eop`
closes the packet, recording `empty`/`error` from this word. -/
def monStep (sig : Sig) (s : MonState) : MonState :=
  if sig.valid && sig.ready then
    let d := sig.data
    let s1 := if sig.sop then { s with curPkt := [], inPkt := true } else s
    let s2 := if s1.inPkt then { s1 with curPkt := s1.curPkt ++ [d] } else s1
    if sig.eop then
      if s2.inPkt then
        { s2 with
          packets := s2.packets ++ [s2.curPkt]
          metadata := s2.metadata ++ [(sig.empty, if sig.error then 1 else 0)]
          curPkt := []
          inPkt := false }
      else { s2 with curPkt := [], inPkt := false }
    else s2
  else s

/-- Signals at edge 1 of the round-trip simulation: the driver has written its
idle defaults at call entry and the always-ready sink has written `ready = 1`
(line 37 of the monitor); `data` starts at 0. -/
def sig0 : Sig := ⟨0, false, false, false, 0, false, true⟩

/-- Combined state of the round-trip simulation `send_packet` into an
always-ready `AvalonSTSink.run`. -/
structure C1State where
  sig : Sig
  drv : DrvState
  mon : MonState
deriving Repr, DecidableEq

/-- One clock edge of the round-trip simulation: the monitor samples the
current signals, the driver samples `ready` and produces the next signals
(the always-ready sink wrote `ready` once before the first edge and never
writes it again). -/
def c1Step (p : Pkt) (st : C1State) : C1State :=
  let m := monStep st.sig st.mon
  let ds := drvStep p st.sig.ready (st.drv, st.sig)
  ⟨ds.2, ds.1, m⟩

/-- Round-trip simulation after `k` clock edges. -/
def c1Run (p : Pkt) : Nat → C1State
  | 0 => ⟨sig0, .start, mon0⟩
  | k + 1 => c1Step p (c1Run p k)

/-- Signals while word `i` is presented in the always-ready round trip. -/
def wordSig (p : Pkt) (i : Nat) : Sig := wordWrite p i sig0

/-- Monitor state once words `0..i-1` have been accepted (always-ready run). -/
def monAt (p : Pkt) (i : Nat) : MonState :=
  ⟨[], p.words.take i, decide (0 < i), []⟩

/-- Monitor state after the whole packet has been collected. -/
def monDone (p : Pkt) : MonState :=
  ⟨[p.words], [], false, [(p.empty_last, if p.error then 1 else 0)]⟩

lemma take_succ_getD {l : List Nat} {i : Nat} (h : i < l.length) :
    l.take (i + 1) = l.take i ++ [l.getD i 0] := by
  rw [List.getD_eq_getElem _ _ h, List.take_concat_get']

lemma monStep_word_any (p : Pkt) (i : Nat) (hi : i < p.words.length)
    (hlast : i + 1 < p.words.length) (P : List (List Nat)) (D : List (Nat × Nat)) :
    monStep (wordSig p i) ⟨P, p.words.take i, decide (0 < i), D⟩
      = ⟨P, p.words.take (i + 1), decide (0 < i + 1), D⟩ := by
  have hne : i ≠ p.words.length - 1 := by omega
  cases hzero : decide (i = 0) with
  | false =>
    have h0 : 0 < i := by
      simp only [decide_eq_false_iff_not] at hzero; omega
    simp [monStep, wordSig, wordWrite, sig0, hne, h0,
      take_succ_getD hi, Nat.pos_iff_ne_zero.mp h0]
  | true =>
    have h0 : i = 0 := by simpa using hzero
    subst h0
    simp [monStep, wordSig, wordWrite, sig0, hne, take_succ_getD hi]

lemma monStep_lastWord_any (p : Pkt) (hne : p.words ≠ [])
    (P : List (List Nat)) (D : List (Nat × Nat)) :
    monStep (wordSig p (p.words.length - 1))
        ⟨P, p.words.take (p.words.length - 1), decide (0 < p.words.length - 1), D⟩
      = ⟨P ++ [p.words], [], false,
          D ++ [(p.empty_last, if p.error then 1 else 0)]⟩ := by
  have hlen : 0 < p.words.length := List.length_pos.mpr hne
  have hi : p.words.length - 1 < p.words.length := by omega
  have htake : p.words.take (p.words.length - 1)
        ++ [p.words.getD (p.words.length - 1) 0] = p.words := by
    rw [← take_succ_getD hi, show p.words.length - 1 + 1 = p.words.length by omega,
      List.take_length]
  simp only [List.getD, List.get?_eq_getElem?] at htake
  by_cases h0 : p.words.length - 1 = 0
  · rw [h0] at htake ⊢
    simp only [List.take_zero, List.nil_append] at htake
    simp [monStep, wordSig, wordWrite, sig0, h0, htake]
  · have hpos : 0 < p.words.length - 1 := by omega
    simp [monStep, wordSig, wordWrite, sig0, h0, hpos, htake]

lemma monStep_word (p : Pkt) (i : Nat) (hi : i < p.words.length)
    (hlast : i + 1 < p.words.length) :
    monStep (wordSig p i) (monAt p i) = monAt p (i + 1) :=
  monStep_word_any p i hi hlast [] []

lemma monStep_lastWord (p : Pkt) (hne : p.words ≠ []) :
    monStep (wordSig p (p.words.length - 1)) (monAt p (p.words.length - 1))
      = monDone p :=
  monStep_lastWord_any p hne [] []

lemma c1Run_present (p : Pkt) (hne : p.words ≠ []) :
    ∀ i, i < p.words.length →
      c1Run p (1 + i) = ⟨wordSig p i, .sending i, monAt p i⟩ := by
  intro i
  induction i with
  | zero =>
    intro _
    simp [c1Run, c1Step, monStep, sig0, drvStep, mon0, monAt, wordSig,
      List.isEmpty_iff, hne]
  | succ i ih =>
    intro hi
    have hi' : i < p.words.length := by omega
    have : (1 + (i + 1)) = (1 + i) + 1 := by omega
    rw [this, c1Run, ih hi', c1Step]
    simp only [monStep_word p i hi' hi]
    simp [drvStep, wordSig, wordWrite, sig0, hi]

lemma c1Run_closed (p : Pkt) (hne : p.words ≠ []) :
    c1Run p (p.words.length + 1)
      = ⟨idleWrite (wordSig p (p.words.length - 1)), .finishing, monDone p⟩ := by
  have hlen : 0 < p.words.length := List.length_pos.mpr hne
  have hstep := c1Run_present p hne (p.words.length - 1) (by omega)
  have : p.words.length + 1 = (1 + (p.words.length - 1)) + 1 := by omega
  rw [this, c1Run, hstep, c1Step]
  simp only [monStep_lastWord p hne]
  simp [drvStep, wordSig, wordWrite, sig0, show ¬(p.words.length - 1 + 1 < p.words.length) by omega]

/-- Invariant of the round-trip simulation once the packet is fully collected:
the monitor holds exactly the sent packet and the driver has gone idle. -/
def c1Settled (p : Pkt) (st : C1State) : Prop :=
  st.mon = monDone p ∧ st.sig.valid = false ∧ (st.drv = .finishing ∨ st.drv = .done)

lemma c1Settled_step (p : Pkt) (st : C1State) (h : c1Settled p st) :
    c1Settled p (c1Step p st) := by
  obtain ⟨hm, hv, hd⟩ := h
  rcases hd with hd | hd <;>
    simp [c1Settled, c1Step, monStep, hv, hm, hd, drvStep]

lemma c1Run_settled (p : Pkt) (hne : p.words ≠ []) (m : Nat) :
    c1Settled p (c1Run p (p.words.length + 1 + m)) := by
  induction m with
  | zero =>
    rw [Nat.add_zero, c1Run_closed p hne]
    exact ⟨rfl, rfl, Or.inl rfl⟩
  | succ m ih =>
    have : p.words.length + 1 + (m + 1) = (p.words.length + 1 + m) + 1 := by omega
    rw [this, c1Run]
    exact c1Settled_step p _ ih

/-- C1: driving a packet `P` (non-empty word list, `empty_last`, `error`) with
`AvalonSTSource.send_packet`, with its byte length inside the configured
46..1500 range, into an always-ready `AvalonSTSink.run` yields exactly one
collected packet equal to `P`'s word list, with recorded metadata equal to
`P`'s empty count and error flag. -/
theorem roundTrip_identity (p : Pkt) (hne : p.words ≠ [])
    (_hmin : 46 ≤ 8 * (p.words.length - 1) + (8 - p.empty_last))
    (_hmax : 8 * (p.words.length - 1) + (8 - p.empty_last) ≤ 1500) (m : Nat) :
    (c1Run p (p.words.length + 1 + m)).mon.packets = [p.words] ∧
      (c1Run p (p.words.length + 1 + m)).mon.metadata
        = [(p.empty_last, if p.error then 1 else 0)] := by
  have h := (c1Run_settled p hne m).1
  rw [h]
  exact ⟨rfl, rfl⟩

/-- C1 witness: the round trip at a concrete 48-byte packet. -/
theorem roundTrip_identity_witness :
    (c1Run ⟨[1, 2, 3, 4, 5, 6], 0, false⟩ 7).mon.packets = [[1, 2, 3, 4, 5, 6]] ∧
      (c1Run ⟨[1, 2, 3, 4, 5, 6], 0, false⟩ 7).mon.metadata = [(0, 0)] :=
  roundTrip_identity ⟨[1, 2, 3, 4, 5, 6], 0, false⟩ (by decide) (by decide) (by decide) 0

/-! ### Standalone driver runs against a readiness oracle

For properties about the drivers alone (claims about framing and ready
observation), the peer's readiness is an arbitrary oracle `r : Nat → Bool`
where `r k` is the `ready` value produced at edge `k` and therefore observed
by the driver on edge `k + 1` (the one-edge observation delay of the
signal interface). -/

/-- Port signals before any agent has written them. -/
def sigInit : Sig := ⟨0, false, false, false, 0, false, false⟩

/-- `AvalonSTSource.send_packet` stepped alone against a readiness oracle:
state after `k` clock edges. -/
def drvRun (p : Pkt) (r : Nat → Bool) : Nat → DrvState × Sig
  | 0 => (.start, sigInit)
  | k + 1 => drvStep p (r k) (drvRun p r k)

/-- The port presents word `i` of packet `p`: valid with `sop` exactly on word
0, `eop` and the empty count exactly on the last word, the error flag on every
word. -/
def presents (p : Pkt) (i : Nat) (s : Sig) : Prop :=
  s.valid = true ∧ s.data = p.words.getD i 0 ∧ s.sop = decide (i = 0) ∧
    s.eop = decide (i = p.words.length - 1) ∧
    s.empty = (if i = p.words.length - 1 then p.empty_last else 0) ∧
    s.error = p.error

/-- The port presents the idle pattern: valid deasserted, markers cleared. -/
def idlePres (s : Sig) : Prop :=
  s.valid = false ∧ s.sop = false ∧ s.eop = false ∧ s.empty = 0 ∧ s.error = false

lemma idlePres_idleWrite (s : Sig) : idlePres (idleWrite s) := by
  simp [idlePres, idleWrite]

lemma presents_wordWrite (p : Pkt) (i : Nat) (s : Sig) :
    presents p i (wordWrite p i s) := by
  simp [presents, wordWrite]

/-- The framing contract of `send_packet` at every reachable driver state: a
presented word `i` is in range and correctly framed, every non-presenting
state shows the idle pattern (valid deasserted, markers cleared). -/
def drvOk (p : Pkt) : DrvState × Sig → Prop
  | (.start, s) => idlePres s
  | (.sending i, s) => i < p.words.length ∧ presents p i s
  | (.finishing, s) => idlePres s
  | (.done, s) => idlePres s

lemma drvRun_ok (p : Pkt) (hne : p.words ≠ []) (r : Nat → Bool) (k : Nat) :
    drvOk p (drvRun p r k) := by
  induction k with
  | zero => simp [drvRun, drvOk, sigInit, idlePres]
  | succ k ih =>
    rcases hrun : drvRun p r k with ⟨st, s⟩
    rw [hrun] at ih
    rw [drvRun, hrun]
    cases st with
    | start =>
      simp [drvStep, List.isEmpty_iff, hne, drvOk, presents_wordWrite,
        List.length_pos.mpr hne]
    | sending i =>
      by_cases hr : r k
      · by_cases hlt : i + 1 < p.words.length
        · simp [drvStep, hr, hlt, drvOk, presents_wordWrite]
        · simp [drvStep, hr, hlt, drvOk, idlePres_idleWrite]
      · simpa [drvStep, hr, drvOk] using ih
    | finishing => simpa [drvStep, drvOk] using ih
    | done => simpa [drvStep, drvOk] using ih

/-- C3: for a non-empty word list, every state reached by
`AvalonSTSource.send_packet` under an arbitrary readiness oracle satisfies the
framing contract: whenever word `i` is presented, `start` is asserted exactly
when `i = 0`, `end` exactly on the last word, the empty count equals
`empty_last` exactly on the last word and 0 earlier, the error flag is driven
on every word; before the first word and after the last word is accepted the
port shows valid deasserted with all markers cleared (`drvOk`/`presents`/
`idlePres` spell these out). -/
theorem source_framing (p : Pkt) (hne : p.words ≠ []) (r : Nat → Bool) (k : Nat) :
    drvOk p (drvRun p r k) :=
  drvRun_ok p hne r k

/-- C3 witness: framing of a concrete two-word packet, two always-ready edges
in (word 1 presented). -/
theorem source_framing_witness :
    drvOk ⟨[7, 8], 3, true⟩ (drvRun ⟨[7, 8], 3, true⟩ (fun _ => true) 2) :=
  source_framing ⟨[7, 8], 3, true⟩ (by decide) (fun _ => true) 2

/-! ### Queued stream source (`AvalonSTQueuedSource`) -/

/-- Suspension region of the `_send_task` coroutine: `qidle` groups the awaits
with no word on the wire (lines 168, 180 and 218 of `avalon_st_driver.py`),
`waiting p` the awaits with a word of `p` presented and readiness being polled
(lines 201 and 203); `p` records the coroutine locals `words, empty_last,
error` captured at line 189, which survive across the inner waits even if
`self.current_packet` is mutated externally. -/
inductive QPhase where
  | qidle
  | waiting (p : Pkt)
deriving Repr, DecidableEq

/-- Mutable fields of an `AvalonSTQueuedSource` (lines 137-140) plus the
coroutine suspension point of its background `_send_task`. -/
structure QDrv where
  packet_queue : List Pkt
  current_packet : Option Pkt
  current_word_idx : Nat
  phase : QPhase
  running : Bool
deriving Repr, DecidableEq

/-- One clock edge of `AvalonSTQueuedSource._send_task` (lines 159-218).
At a `qidle` resume the loop top re-reads `current_packet`: with nothing to
send it re-writes the idle pattern; otherwise it dequeues (or resumes) a
packet and presents its next word.  At a `waiting p` resume with ready
observed, the word index is advanced; when it reaches the captured length the
task returns to idle, otherwise the loop top re-reads `current_packet` and
presents the next word (going idle if the in-flight packet was cleared
externally). -/
def qStep (r : Bool) (q : QDrv) (s : Sig) : QDrv × Sig :=
  match q.phase with
  | .qidle =>
    match q.current_packet with
    | none =>
      match q.packet_queue with
      | [] => (q, idleWrite s)
      | p :: rest =>
        ({ q with packet_queue := rest, current_packet := some p,
                  current_word_idx := 0, phase := .waiting p },
          wordWrite p 0 s)
    | some p => ({ q with phase := .waiting p }, wordWrite p q.current_word_idx s)
  | .waiting p =>
    if r then
      let idx := q.current_word_idx + 1
      if p.words.length ≤ idx then
        ({ q with current_packet := none, current_word_idx := 0, phase := .qidle },
          idleWrite s)
      else
        match q.current_packet with
        | none => ({ q with current_word_idx := idx, phase := .qidle }, idleWrite s)
        | some p2 =>
          ({ q with current_word_idx := idx, phase := .waiting p2 }, wordWrite p2 idx s)
    else (q, s)

/-- `AvalonSTQueuedSource.get_queue_size` (lines 220-225): queued packets plus
one if a packet is in flight. -/
def get_queue_size (q : QDrv) : Nat :=
  q.packet_queue.length + (if q.current_packet.isSome then 1 else 0)

/-- `AvalonSTQueuedSource.clear_queue` (lines 227-231): resets the queue, the
in-flight slot and the word cursor.  It touches nothing else — in particular
no signal handle is written and the background task keeps running. -/
def clear_queue (q : QDrv) : QDrv :=
  { q with packet_queue := [], current_packet := none, current_word_idx := 0 }

/-- `_send_task` stepped alone against a readiness oracle, all packets `ps`
queued before the first edge: state after `k` clock edges. -/
def qDrvRun (ps : List Pkt) (r : Nat → Bool) : Nat → QDrv × Sig
  | 0 => (⟨ps, none, 0, .qidle, true⟩, sigInit)
  | k + 1 => qStep (r k) (qDrvRun ps r k).1 (qDrvRun ps r k).2

/-- C4: neither driver can advance past a word on the edge that first presents
it.  For the blocking source: while word `i` is on the wire, an edge on which
ready is observed low changes nothing (the word is held stable), and leaving
the `sending i` state at an edge requires ready observed asserted on that
edge; presentation itself consumes the previous edge, so the earliest
acceptance is the edge after presentation.  The same two facts hold of the
queued source's `_send_task` with its word cursor. -/
theorem ready_observation_delay :
    (∀ (p : Pkt) (r : Nat → Bool) (k i : Nat), (drvRun p r k).1 = .sending i →
        r k = false → drvRun p r (k + 1) = drvRun p r k) ∧
      (∀ (p : Pkt) (r : Nat → Bool) (k i : Nat), (drvRun p r k).1 = .sending i →
        (drvRun p r (k + 1)).1 ≠ .sending i → r k = true) ∧
      (∀ (ps : List Pkt) (r : Nat → Bool) (k : Nat) (pk : Pkt),
        (qDrvRun ps r k).1.phase = .waiting pk → r k = false →
          qDrvRun ps r (k + 1) = qDrvRun ps r k) ∧
      (∀ (ps : List Pkt) (r : Nat → Bool) (k : Nat) (pk : Pkt),
        (qDrvRun ps r k).1.phase = .waiting pk →
        (qDrvRun ps r (k + 1)).1.phase ≠ .waiting pk ∨
          (qDrvRun ps r (k + 1)).1.current_word_idx ≠ (qDrvRun ps r k).1.current_word_idx →
          r k = true) := by
  refine ⟨?_, ?_, ?_, ?_⟩
  · intro p r k i hst hr
    rcases hrun : drvRun p r k with ⟨st, s⟩
    rw [hrun] at hst
    simp only at hst
    subst hst
    rw [drvRun, hrun]
    simp [drvStep, hr]
  · intro p r k i hst hne
    by_cases hr : r k
    · exact hr
    · rcases hrun : drvRun p r k with ⟨st, s⟩
      rw [hrun] at hst
      simp only at hst
      subst hst
      rw [drvRun, hrun] at hne
      simp [drvStep, hr] at hne
  · intro ps r k pk hst hr
    rcases hrun : qDrvRun ps r k with ⟨q, s⟩
    rw [hrun] at hst
    simp only at hst
    rw [qDrvRun, hrun, qStep, hst]
    simp [hr]
  · intro ps r k pk hst hch
    by_cases hr : r k
    · exact hr
    · exfalso
      rcases hrun : qDrvRun ps r k with ⟨q, s⟩
      rw [hrun] at hst
      simp only at hst
      rw [qDrvRun, hrun, qStep, hst] at hch
      simp [hr, hrun, hst] at hch

/-- C4 witness: a concrete single-word packet held across a not-ready edge by
both drivers. -/
theorem ready_observation_delay_witness :
    drvRun ⟨[5], 0, false⟩ (fun _ => false) 2 = drvRun ⟨[5], 0, false⟩ (fun _ => false) 1 ∧
      qDrvRun [⟨[5], 0, false⟩] (fun _ => false) 2
        = qDrvRun [⟨[5], 0, false⟩] (fun _ => false) 1 :=
  ⟨ready_observation_delay.1 ⟨[5], 0, false⟩ (fun _ => false) 1 0 (by decide) rfl,
    ready_observation_delay.2.2.1 [⟨[5], 0, false⟩] (fun _ => false) 1 ⟨[5], 0, false⟩
      (by decide) rfl⟩

/-! ### Protocol violations tolerated by the plain sink -/

/-- C7: an accepted word (`valid && ready`) with `start` deasserted while the
packet assembler is idle — including one with `end` asserted while no packet
is active — is a no-op for `AvalonSTSink.run`: the assembler state is
unchanged, so in particular nothing is ever appended to the collected packet
history from such words. -/
theorem idle_violation_noop (sig : Sig) (s : MonState) (hv : sig.valid = true)
    (hr : sig.ready = true) (hsop : sig.sop = false) (hin : s.inPkt = false)
    (hcur : s.curPkt = []) :
    monStep sig s = s := by
  obtain ⟨pks, cur, inp, md⟩ := s
  simp only at hin hcur
  subst hin hcur
  by_cases heop : sig.eop <;> simp [monStep, hv, hr, hsop, heop]

/-- C7 witness: a concrete accepted word with `end` asserted and `start`
deasserted leaves the freshly initialised sink unchanged. -/
theorem idle_violation_noop_witness :
    monStep ⟨99, true, false, true, 2, true, true⟩ mon0 = mon0 :=
  idle_violation_noop ⟨99, true, false, true, 2, true, true⟩ mon0 rfl rfl rfl rfl rfl

/-! ### Packet construction (`test_utils.create_packet`, `config.py`) -/

/-- `config.BYTES_PER_WORD`: 64-bit data words. -/
def BYTES_PER_WORD : Nat := 8

/-- `config.MIN_PACKET_BYTES`: minimum stream payload size. -/
def MIN_PACKET_BYTES : Nat := 46

/-- `config.MAX_PACKET_BYTES`: maximum stream payload size. -/
def MAX_PACKET_BYTES : Nat := 1500

/-- The payload pattern names accepted by `create_packet` (`'incrementing'`,
`'all_ones'`, `'all_zeros'`, `'alternating'`, `'random'`, anything else). -/
inductive PayloadKind where
  | incrementing
  | all_ones
  | all_zeros
  | alternating
  | randomized
  | fallback
deriving Repr, DecidableEq

/-- The pattern-branch word generation of `create_packet` (lines 203-216 of
`test_utils.py`); the `'random'` branch draws 64-bit values from a generator
stream `randbits`. -/
def pattern_words (pat : PayloadKind) (num_words start_value : Nat)
    (randbits : Nat → Nat) : List Nat :=
  match pat with
  | .incrementing => (List.range num_words).map (fun i => start_value + i)
  | .all_ones => List.replicate num_words 0xFFFFFFFFFFFFFFFF
  | .all_zeros => List.replicate num_words 0x0000000000000000
  | .alternating =>
    (List.range num_words).map
      (fun i => if i % 2 = 0 then 0xAAAAAAAAAAAAAAAA else 0x5555555555555555)
  | .randomized => (List.range num_words).map (fun i => randbits i % 2 ^ 64)
  | .fallback => (List.range num_words).map (fun i => 0xDEADBEEFCAFEBABE + i)

/-- `test_utils.create_packet` (lines 158-225) with an explicit byte count:
rejects a size outside the configured inclusive range with a descriptive
error, otherwise builds `num_words = ceil(num_bytes / 8)` pattern words,
masks the trailing `empty_last` bytes of the final word to zero
(`& ((1 << valid_bytes*8) - 1)`, i.e. `% 2 ^ (valid_bytes*8)`), and returns
`(words, empty_last)`. -/
def create_packet (num_bytes : Nat) (pat : PayloadKind) (start_value : Nat)
    (randbits : Nat → Nat) : Except String (List Nat × Nat) :=
  if num_bytes < MIN_PACKET_BYTES ∨ MAX_PACKET_BYTES < num_bytes then
    .error s!"Packet size {num_bytes} bytes is outside valid range (46-1500 bytes)"
  else
    let num_words := (num_bytes + BYTES_PER_WORD - 1) / BYTES_PER_WORD
    let empty_last := num_words * BYTES_PER_WORD - num_bytes
    let valid_bytes_last := BYTES_PER_WORD - empty_last
    let base := pattern_words pat num_words start_value randbits
    let words :=
      if 0 < empty_last ∧ 0 < num_words then
        base.dropLast ++ [base.getLast?.getD 0 % 2 ^ (valid_bytes_last * 8)]
      else base
    .ok (words, empty_last)

lemma pattern_words_length (pat : PayloadKind) (num_words start_value : Nat)
    (randbits : Nat → Nat) :
    (pattern_words pat num_words start_value randbits).length = num_words := by
  cases pat <;> simp [pattern_words]

lemma masked_words_length (nw el vb : Nat) (hnw : 0 < nw) (base : List Nat)
    (hbase : base.length = nw) :
    (if 0 < el ∧ 0 < nw then
        base.dropLast ++ [base.getLast?.getD 0 % 2 ^ (vb * 8)]
      else base).length = nw := by
  split
  · simp [List.length_dropLast, hbase]
    omega
  · exact hbase

/-- C8: `create_packet` fails with an error exactly when the requested byte
count is strictly below `MIN_PACKET_BYTES = 46` or strictly above
`MAX_PACKET_BYTES = 1500` (so exactly 46 and exactly 1500 are accepted), and
every accepted call returns `(words, empty_last)` with
`8 * (len(words) - 1) + (8 - empty_last) = num_bytes` and
`empty_last ∈ [0, 8)`. -/
theorem create_packet_contract (num_bytes : Nat) (pat : PayloadKind)
    (start_value : Nat) (randbits : Nat → Nat) :
    (∀ ws el, create_packet num_bytes pat start_value randbits = .ok (ws, el) →
        BYTES_PER_WORD * (ws.length - 1) + (BYTES_PER_WORD - el) = num_bytes ∧
          el < BYTES_PER_WORD) ∧
      (MIN_PACKET_BYTES ≤ num_bytes → num_bytes ≤ MAX_PACKET_BYTES →
        ∃ ws el, create_packet num_bytes pat start_value randbits = .ok (ws, el)) ∧
      (num_bytes < MIN_PACKET_BYTES ∨ MAX_PACKET_BYTES < num_bytes →
        ∃ msg, create_packet num_bytes pat start_value randbits = .error msg) := by
  by_cases hb : num_bytes < MIN_PACKET_BYTES ∨ MAX_PACKET_BYTES < num_bytes
  · refine ⟨fun ws el hok => ?_, fun h1 h2 => ?_, fun _ => ?_⟩
    · rw [create_packet, if_pos hb] at hok
      exact absurd hok (by simp)
    · exact absurd hb (by simp [MIN_PACKET_BYTES, MAX_PACKET_BYTES] at h1 h2 ⊢; omega)
    · exact ⟨_, by rw [create_packet, if_pos hb]⟩
  · have hrange : MIN_PACKET_BYTES ≤ num_bytes ∧ num_bytes ≤ MAX_PACKET_BYTES := by
      simp only [MIN_PACKET_BYTES, MAX_PACKET_BYTES, not_or, not_lt] at hb ⊢
      omega
    refine ⟨fun ws el hok => ?_, fun _ _ => ?_, fun h => ?_⟩
    · rw [create_packet, if_neg hb] at hok
      simp only [MIN_PACKET_BYTES, MAX_PACKET_BYTES, not_or, not_lt] at hb
      simp only [BYTES_PER_WORD, Except.ok.injEq, Prod.mk.injEq] at hok ⊢
      obtain ⟨hw, he⟩ := hok
      have hnw : 0 < (num_bytes + 8 - 1) / 8 := by omega
      have hlen : ws.length = (num_bytes + 8 - 1) / 8 := by
        rw [← hw]
        exact masked_words_length _ _ _ hnw _ (pattern_words_length ..)
      rw [hlen, ← he]
      omega
    · exact ⟨_, _, by rw [create_packet, if_neg hb]⟩
    · exact absurd h hb

/-- C8 witness: the boundary sizes 46 and 1500 are accepted (with the size
equation holding for the returned value), and 45 and 1501 are rejected. -/
theorem create_packet_contract_witness :
    (∃ ws el, create_packet 46 .incrementing 0x1000 (fun _ => 0) = .ok (ws, el)) ∧
      (∃ ws el, create_packet 1500 .incrementing 0x1000 (fun _ => 0) = .ok (ws, el)) ∧
      (∃ msg, create_packet 45 .incrementing 0x1000 (fun _ => 0) = .error msg) ∧
      (∃ msg, create_packet 1501 .incrementing 0x1000 (fun _ => 0) = .error msg) ∧
      BYTES_PER_WORD * (((create_packet 46 .incrementing 0x1000 (fun _ => 0)).toOption.getD
          ([], 0)).1.length - 1) +
        (BYTES_PER_WORD - ((create_packet 46 .incrementing 0x1000 (fun _ => 0)).toOption.getD
          ([], 0)).2) = 46 :=
  ⟨(create_packet_contract 46 .incrementing 0x1000 (fun _ => 0)).2.1 (by decide) (by decide),
    (create_packet_contract 1500 .incrementing 0x1000 (fun _ => 0)).2.1 (by decide) (by decide),
    (create_packet_contract 45 .incrementing 0x1000 (fun _ => 0)).2.2 (by decide),
    (create_packet_contract 1501 .incrementing 0x1000 (fun _ => 0)).2.2 (by decide),
    ((create_packet_contract 46 .incrementing 0x1000 (fun _ => 0)).1 _ _ (by rfl)).1⟩

/-! ### Backpressure sink (`AvalonSTSinkWithBackpressure`) -/

/-- State of `AvalonSTSinkWithBackpressure` (lines 97-102 of
`avalon_st_monitor.py`): collected packets, current packet, in-packet flag,
the last collected data value and whether the previous edge was an accepted
transfer. -/
structure BPMon where
  packets : List (List Nat)
  curPkt : List Nat
  inPkt : Bool
  lastData : Option Nat
  lastVR : Bool
deriving Repr, DecidableEq

/-- Initial `AvalonSTSinkWithBackpressure` state. -/
def bpMon0 : BPMon := ⟨[], [], false, none, false⟩

/-- The accepted-word handling of the pattern branch of
`AvalonSTSinkWithBackpressure.run` up to and including the
`_last_valid_ready = True` write (lines 170-195): `sop` restarts the packet
and resets the duplicate tracking, then the word is collected only on a
rising edge of acceptance or when the data differs from the last recorded
value. -/
def bpCollectWord (sig : Sig) (s : BPMon) : BPMon :=
  let d := sig.data
  let s1 :=
    if sig.sop then
      { s with curPkt := [], inPkt := true, lastData := none, lastVR := false }
    else s
  let is_rising_edge := !s1.lastVR
  let data_changed :=
    match s1.lastData with
    | some x => decide (d ≠ x)
    | none => false
  let s2 :=
    if (is_rising_edge || data_changed) && s1.inPkt then
      { s1 with lastData := some d, curPkt := s1.curPkt ++ [d] }
    else s1
  { s2 with lastVR := true }

/-- One clock edge of the pattern branch's packet collection (lines 166-207):
on an accepted transfer, collect the word per `bpCollectWord` and close the
packet if `eop`; otherwise only drop the previous-edge-accepted mark. -/
def bpStep (sig : Sig) (s : BPMon) : BPMon :=
  if sig.valid && sig.ready then
    let s3 := bpCollectWord sig s
    if sig.eop && s3.inPkt then
      { s3 with packets := s3.packets ++ [s3.curPkt], curPkt := [], inPkt := false,
                lastData := none }
    else s3
  else { s with lastVR := false }

/-- Pattern-follower state (lines 135-136): current segment index and cycles
elapsed in it. -/
structure PatState where
  pattern_idx : Nat
  cycles_in_pattern : Nat
deriving Repr, DecidableEq

/-- One clock edge of the ready-pattern follower (lines 144-164): the cycle
counter advances; when it reaches the current segment's hold count the
follower moves to the next segment (wrapping to segment 0 after the last) and
writes that segment's ready level.  Returns the new state and the ready write,
if any. -/
def patStep (pattern : List (Nat × Bool)) (ps : PatState) : PatState × Option Bool :=
  let cyc := ps.cycles_in_pattern + 1
  if ps.pattern_idx < pattern.length then
    let seg := pattern.getD ps.pattern_idx (0, false)
    if seg.1 ≤ cyc then
      let idx := ps.pattern_idx + 1
      if idx < pattern.length then
        (⟨idx, 0⟩, some (pattern.getD idx (0, false)).2)
      else
        match pattern.head? with
        | some seg0 => (⟨0, 0⟩, some seg0.2)
        | none => (⟨0, 0⟩, none)
    else (⟨ps.pattern_idx, cyc⟩, none)
  else (⟨ps.pattern_idx, cyc⟩, none)

/-- Combined state of `send_packet` into a pattern-driven
`AvalonSTSinkWithBackpressure.run`. -/
structure BPSim where
  sig : Sig
  drv : DrvState
  mon : BPMon
  pat : PatState
deriving Repr, DecidableEq

/-- Application of the pattern follower's deferred ready write, if any. -/
def readyPatch (w : Option Bool) (s : Sig) : Sig :=
  match w with
  | some b => { s with ready := b }
  | none => s

/-- One clock edge of the backpressure round trip: the monitor collects from
the current signals and updates the pattern (its ready write takes effect on
the next edge), the driver samples `ready` and produces the next signals. -/
def bpSimStep (p : Pkt) (pattern : List (Nat × Bool)) (st : BPSim) : BPSim :=
  let m := bpStep st.sig st.mon
  let pr := patStep pattern st.pat
  let ds := drvStep p st.sig.ready (st.drv, st.sig)
  ⟨readyPatch pr.2 ds.2, ds.1, m, pr.1⟩

/-- Signals at edge 1 of the backpressure round trip: driver idle defaults
written, the sink has written segment 0's ready level (lines 138-141). -/
def bpSim0 (pattern : List (Nat × Bool)) : BPSim :=
  ⟨{ sigInit with ready := (pattern.headD (0, false)).2 }, .start, bpMon0, ⟨0, 0⟩⟩

/-- Backpressure round-trip simulation after `k` clock edges. -/
def bpRun (p : Pkt) (pattern : List (Nat × Bool)) : Nat → BPSim
  | 0 => bpSim0 pattern
  | k + 1 => bpSimStep p pattern (bpRun p pattern k)

/-- C9: in pattern-driven mode, an accepted mid-packet word (valid and ready,
no new `sop`, packet in progress, a last value recorded) is collected exactly
when the previous edge was not an accepted transfer (rising edge of
acceptance) or the data differs from the last recorded value; in particular
an accepted repeat of the last value directly after another accepted transfer
is dropped.  On an `eop` word the same rule decides whether the closing word
is part of the recorded packet. -/
theorem dedup_rule (sig : Sig) (s : BPMon) (hv : sig.valid = true)
    (hr : sig.ready = true) (hsop : sig.sop = false) (hin : s.inPkt = true)
    (x : Nat) (hld : s.lastData = some x) :
    (sig.eop = false →
        ((bpStep sig s).curPkt = s.curPkt ++ [sig.data] ↔
          (s.lastVR = false ∨ sig.data ≠ x))) ∧
      (sig.eop = true →
        ((bpStep sig s).packets = s.packets ++ [s.curPkt ++ [sig.data]] ↔
          (s.lastVR = false ∨ sig.data ≠ x))) ∧
      (sig.eop = false → s.lastVR = true → sig.data = x →
        (bpStep sig s).curPkt = s.curPkt) := by
  by_cases hvr : s.lastVR
  · by_cases hd : sig.data = x
    · refine ⟨fun heop => ?_, fun heop => ?_, fun heop _ _ => ?_⟩ <;>
        simp [bpStep, bpCollectWord, hv, hr, hsop, hin, hld, hvr, hd, heop]
    · refine ⟨fun heop => ?_, fun heop => ?_, fun heop _ h => absurd h hd⟩ <;>
        simp [bpStep, bpCollectWord, hv, hr, hsop, hin, hld, hvr, hd, heop]
  · refine ⟨fun heop => ?_, fun heop => ?_, fun _ hvr' => absurd hvr' (by simp [hvr])⟩ <;>
      simp [bpStep, bpCollectWord, hv, hr, hsop, hin, hld, hvr, heop]

/-- C9 witness: with a recorded last value 5 and the previous edge accepted, a
repeated 5 is dropped while a 6 is collected. -/
theorem dedup_rule_witness :
    (bpStep ⟨5, true, false, false, 0, false, true⟩ ⟨[], [5], true, some 5, true⟩).curPkt
        = [5] ∧
      (bpStep ⟨6, true, false, false, 0, false, true⟩ ⟨[], [5], true, some 5, true⟩).curPkt
        = [5, 6] :=
  ⟨(dedup_rule ⟨5, true, false, false, 0, false, true⟩ ⟨[], [5], true, some 5, true⟩
      rfl rfl rfl rfl 5 rfl).2.2 rfl rfl rfl,
    ((dedup_rule ⟨6, true, false, false, 0, false, true⟩ ⟨[], [5], true, some 5, true⟩
      rfl rfl rfl rfl 5 rfl).1 rfl).mpr (Or.inr (by decide))⟩

/-- C10: an accepted word with `start` asserted while a packet is already in
progress makes both sinks silently drop the partial packet and begin a fresh
one whose first payload word is this word (closed immediately if the word also
carries `end`); and in both sinks the collected history grows only on
accepted `end`-marked words, the plain sink's new entry always ending in that
word's data. -/
lemma bpCollectWord_packets (sg : Sig) (u : BPMon) :
    (bpCollectWord sg u).packets = u.packets := by
  simp only [bpCollectWord]
  split <;> split <;> rfl

lemma monStep_packets_cases (sg : Sig) (u : MonState) :
    (monStep sg u).packets = u.packets ∨
      (sg.eop = true ∧ sg.valid = true ∧ sg.ready = true ∧
        ∃ ws, (monStep sg u).packets = u.packets ++ [ws ++ [sg.data]]) := by
  by_cases hv : sg.valid = true
  · by_cases hr : sg.ready = true
    · by_cases heop : sg.eop = true
      · by_cases hsp : sg.sop = true
        · exact Or.inr ⟨heop, hv, hr, [], by simp [monStep, hv, hr, heop, hsp]⟩
        · by_cases hin : u.inPkt = true
          · exact Or.inr ⟨heop, hv, hr, u.curPkt, by
              simp [monStep, hv, hr, heop, hsp, hin]⟩
          · left
            simp [monStep, hv, hr, heop, hsp, hin]
      · left
        by_cases hsp : sg.sop = true <;> by_cases hin : u.inPkt = true <;>
          simp [monStep, hv, hr, heop, hsp, hin]
    · left
      simp [monStep, hv, hr]
  · left
    simp [monStep, hv]

lemma bpStep_packets_cases (sg : Sig) (u : BPMon) :
    (bpStep sg u).packets = u.packets ∨
      (sg.eop = true ∧ sg.valid = true ∧ sg.ready = true ∧
        ∃ ws, (bpStep sg u).packets = u.packets ++ [ws]) := by
  by_cases hv : sg.valid = true
  · by_cases hr : sg.ready = true
    · by_cases heop : sg.eop = true
      · by_cases hcl : (bpCollectWord sg u).inPkt = true
        · exact Or.inr ⟨heop, hv, hr, (bpCollectWord sg u).curPkt, by
            simp [bpStep, hv, hr, heop, hcl, bpCollectWord_packets]⟩
        · left
          simp [bpStep, hv, hr, heop, hcl, bpCollectWord_packets]
      · left
        simp [bpStep, hv, hr, heop, bpCollectWord_packets]
    · left
      simp [bpStep, hv, hr]
  · left
    simp [bpStep, hv]

/-- C10: an accepted word with `start` asserted while a packet is already in
progress makes both sinks silently drop the partial packet and begin a fresh
one whose first payload word is this word (closed immediately if the word also
carries `end`); and in both sinks the collected history grows only on
accepted `end`-marked words, the plain sink's new entry always ending in that
word's data. -/
theorem sop_restart_discards (sig : Sig) (s : MonState) (t : BPMon)
    (hv : sig.valid = true) (hr : sig.ready = true) (hsop : sig.sop = true)
    (_hin : s.inPkt = true) (_hint : t.inPkt = true) :
    ((monStep sig s).curPkt = (if sig.eop then [] else [sig.data]) ∧
        (monStep sig s).packets
          = (if sig.eop then s.packets ++ [[sig.data]] else s.packets)) ∧
      ((bpStep sig t).curPkt = (if sig.eop then [] else [sig.data]) ∧
        (bpStep sig t).packets
          = (if sig.eop then t.packets ++ [[sig.data]] else t.packets)) ∧
      (∀ (sg : Sig) (u : MonState), (monStep sg u).packets = u.packets ∨
        (sg.eop = true ∧ sg.valid = true ∧ sg.ready = true ∧
          ∃ ws, (monStep sg u).packets = u.packets ++ [ws ++ [sg.data]])) ∧
      (∀ (sg : Sig) (u : BPMon), (bpStep sg u).packets = u.packets ∨
        (sg.eop = true ∧ sg.valid = true ∧ sg.ready = true ∧
          ∃ ws, (bpStep sg u).packets = u.packets ++ [ws])) := by
  refine ⟨?_, ?_, monStep_packets_cases, bpStep_packets_cases⟩
  · by_cases heop : sig.eop <;>
      simp [monStep, hv, hr, hsop, heop]
  · by_cases heop : sig.eop <;>
      simp [bpStep, bpCollectWord, hv, hr, hsop, heop]

/-- C10 witness: a concrete mid-packet `sop` word at both sinks — the partial
packet `[1, 2]` is dropped and a fresh packet `[9]` begins. -/
theorem sop_restart_discards_witness :
    (monStep ⟨9, true, true, false, 0, false, true⟩ ⟨[], [1, 2], true, []⟩).curPkt = [9] ∧
      (bpStep ⟨9, true, true, false, 0, false, true⟩
        ⟨[], [1, 2], true, some 2, true⟩).curPkt = [9] := by
  have h := sop_restart_discards ⟨9, true, true, false, 0, false, true⟩
    ⟨[], [1, 2], true, []⟩ ⟨[], [1, 2], true, some 2, true⟩ rfl rfl rfl rfl rfl
  exact ⟨h.1.1, h.2.1.1⟩

/-! ### `clear_queue` behaviour (claim C6) -/

/-- C6 counterexample: `clear_queue` called mid-packet does not force the port
idle.  Concretely: the drain task is holding word 0 of `[5, 6]` on the wire
(`valid` asserted) waiting for ready; after `clear_queue` and one further edge
with ready observed low, `valid` is still asserted — the output signals were
not forced to their idle values by the call (its body, lines 228-231 of
`avalon_st_driver.py`, writes no signal handle). -/
theorem clear_queue_counterexample :
    (qStep false
        (clear_queue ⟨[], some ⟨[5, 6], 0, false⟩, 0, .waiting ⟨[5, 6], 0, false⟩, true⟩)
        (wordWrite ⟨[5, 6], 0, false⟩ 0 sigInit)).2.valid = true := by decide

/-- C6 (amended): `clear_queue` empties the outstanding queue, clears the
in-flight slot and the word cursor, and does not stop the background drain
task (whose suspension point and `_running` flag are untouched); it does not
write the port's output signals.  The port returns to idle only through the
drain task itself: on the next edge the task writes the idle pattern if it was
at its loop top, or — when it was holding a word — once ready is observed
asserted; while ready stays low the cleared driver keeps driving the last
word. -/
theorem clear_queue_amended (q : QDrv) (s : Sig) (r : Bool) :
    (clear_queue q).packet_queue = [] ∧
      (clear_queue q).current_packet = none ∧
      (clear_queue q).current_word_idx = 0 ∧
      (clear_queue q).running = q.running ∧
      (clear_queue q).phase = q.phase ∧
      (q.phase = .qidle →
        qStep r (clear_queue q) s = (clear_queue q, idleWrite s)) ∧
      (∀ pk, q.phase = .waiting pk → r = true →
        (qStep r (clear_queue q) s).1.phase = .qidle ∧
          (qStep r (clear_queue q) s).2 = idleWrite s) ∧
      (∀ pk, q.phase = .waiting pk → r = false →
        qStep r (clear_queue q) s = (clear_queue q, s)) := by
  refine ⟨rfl, rfl, rfl, rfl, rfl, fun hph => ?_, fun pk hph hr => ?_, fun pk hph hr => ?_⟩
  · simp [qStep, clear_queue, hph]
  · subst hr
    by_cases hlen : pk.words.length ≤ 1 <;>
      simp [qStep, clear_queue, hph, hlen]
  · subst hr
    simp [qStep, clear_queue, hph]

/-- C6 witness: the amended behaviour at a concrete mid-packet clear under
held-low ready — the cleared driver holds its state and the last word stays
driven. -/
theorem clear_queue_amended_witness :
    qStep false
        (clear_queue ⟨[], some ⟨[5, 6], 0, false⟩, 7, .waiting ⟨[5, 6], 0, false⟩, true⟩)
        sig0
      = (clear_queue ⟨[], some ⟨[5, 6], 0, false⟩, 7, .waiting ⟨[5, 6], 0, false⟩, true⟩,
          sig0) :=
  (clear_queue_amended ⟨[], some ⟨[5, 6], 0, false⟩, 7, .waiting ⟨[5, 6], 0, false⟩, true⟩
    sig0 false).2.2.2.2.2.2.2 ⟨[5, 6], 0, false⟩ rfl rfl

/-! ### Queue draining (claim C5): `_send_task` into an always-ready sink -/

/-- Combined state of `AvalonSTQueuedSource._send_task` driving an always-ready
`AvalonSTSink.run`. -/
structure QSim where
  sig : Sig
  drv : QDrv
  mon : MonState
deriving Repr, DecidableEq

/-- One clock edge of the queued-source round trip (always-ready sink). -/
def qSimStep (st : QSim) : QSim :=
  let m := monStep st.sig st.mon
  let qs := qStep st.sig.ready st.drv st.sig
  ⟨qs.2, qs.1, m⟩

/-- Iterated queued-source round trip from an arbitrary state. -/
def qIter (st : QSim) : Nat → QSim
  | 0 => st
  | k + 1 => qSimStep (qIter st k)

/-- Queued-source round trip after `k` edges, all of `ps` enqueued before the
first edge and the drain task started. -/
def qRun (ps : List Pkt) (k : Nat) : QSim :=
  qIter ⟨sig0, ⟨ps, none, 0, .qidle, true⟩, mon0⟩ k

/-- Edges consumed by draining each packet: its word count plus the one idle
edge the task spends after the final word is accepted. -/
def packetEdges (ps : List Pkt) : Nat :=
  ps.foldr (fun p acc => p.words.length + 1 + acc) 0

lemma qIter_add (st : QSim) (a b : Nat) :
    qIter st (a + b) = qIter (qIter st a) b := by
  induction b with
  | zero => rfl
  | succ b ih => rw [← Nat.add_assoc, qIter, qIter, ih]

lemma wordWrite_ready (p : Pkt) (i : Nat) (s : Sig) (h : s.ready = true) :
    wordWrite p i s = wordSig p i := by
  simp [wordWrite, wordSig, sig0, h]

lemma monStep_notValid (sig : Sig) (s : MonState) (h : sig.valid = false) :
    monStep sig s = s := by
  simp [monStep, h]

lemma qIter_words (p : Pkt) (rest : List Pkt) (M : MonState) (s : Sig)
    (_hne : p.words ≠ []) (hM : M.inPkt = false) (hM2 : M.curPkt = [])
    (hsv : s.valid = false) (hsr : s.ready = true) :
    ∀ i, i < p.words.length →
      qIter ⟨s, ⟨p :: rest, none, 0, .qidle, true⟩, M⟩ (1 + i)
        = ⟨wordSig p i, ⟨rest, some p, i, .waiting p, true⟩,
            ⟨M.packets, p.words.take i, decide (0 < i), M.metadata⟩⟩ := by
  intro i
  induction i with
  | zero =>
    intro _
    rw [qIter, qIter, qSimStep, monStep_notValid _ _ hsv]
    simp only [qStep, qSimStep]
    rw [wordWrite_ready p 0 s hsr]
    obtain ⟨P, c, b, D⟩ := M
    simp only at hM hM2
    subst hM hM2
    rfl
  | succ i ih =>
    intro hi
    have hi' : i < p.words.length := by omega
    have : (1 + (i + 1)) = (1 + i) + 1 := by omega
    rw [this, qIter, ih hi', qSimStep]
    simp only [monStep_word_any p i hi' hi]
    simp only [qStep, wordSig, wordWrite, sig0]
    simp [show ¬(p.words.length ≤ i + 1) by omega]

lemma qIter_packet (p : Pkt) (rest : List Pkt) (M : MonState) (s : Sig)
    (hne : p.words ≠ []) (hM : M.inPkt = false) (hM2 : M.curPkt = [])
    (hsv : s.valid = false) (hsr : s.ready = true) :
    qIter ⟨s, ⟨p :: rest, none, 0, .qidle, true⟩, M⟩ (p.words.length + 1)
      = ⟨idleWrite (wordSig p (p.words.length - 1)),
          ⟨rest, none, 0, .qidle, true⟩,
          ⟨M.packets ++ [p.words], [], false,
            M.metadata ++ [(p.empty_last, if p.error then 1 else 0)]⟩⟩ := by
  have hlen : 0 < p.words.length := List.length_pos.mpr hne
  have hstep := qIter_words p rest M s hne hM hM2 hsv hsr (p.words.length - 1) (by omega)
  have heq : p.words.length + 1 = (1 + (p.words.length - 1)) + 1 := by omega
  rw [heq, qIter, hstep, qSimStep]
  simp only [monStep_lastWord_any p hne]
  simp only [qStep, wordSig, wordWrite, sig0]
  simp [show p.words.length ≤ p.words.length - 1 + 1 by omega]

lemma qIter_drain (ps : List Pkt) (hps : ∀ p ∈ ps, p.words ≠ []) :
    ∀ (M : MonState) (s : Sig), M.inPkt = false → M.curPkt = [] →
      s.valid = false → s.ready = true →
      (qIter ⟨s, ⟨ps, none, 0, .qidle, true⟩, M⟩ (packetEdges ps)).drv
          = ⟨[], none, 0, .qidle, true⟩ ∧
        (qIter ⟨s, ⟨ps, none, 0, .qidle, true⟩, M⟩ (packetEdges ps)).mon
          = ⟨M.packets ++ ps.map (fun p => p.words), [], false,
              M.metadata ++ ps.map (fun p => (p.empty_last, if p.error then 1 else 0))⟩ ∧
        (qIter ⟨s, ⟨ps, none, 0, .qidle, true⟩, M⟩ (packetEdges ps)).sig.valid = false ∧
        (qIter ⟨s, ⟨ps, none, 0, .qidle, true⟩, M⟩ (packetEdges ps)).sig.ready = true := by
  induction ps with
  | nil =>
    intro M s hM hM2 hsv hsr
    obtain ⟨P, c, b, D⟩ := M
    simp only at hM hM2
    subst hM hM2
    exact ⟨rfl, by simp [packetEdges, qIter], hsv, hsr⟩
  | cons p rest ih =>
    intro M s hM hM2 hsv hsr
    have hpe : packetEdges (p :: rest) = (p.words.length + 1) + packetEdges rest := by
      simp [packetEdges]
    rw [hpe, qIter_add,
      qIter_packet p rest M s (hps p (by simp)) hM hM2 hsv hsr]
    have hrest := ih (fun q hq => hps q (by simp [hq]))
      ⟨M.packets ++ [p.words], [], false,
        M.metadata ++ [(p.empty_last, if p.error then 1 else 0)]⟩
      (idleWrite (wordSig p (p.words.length - 1))) rfl rfl rfl rfl
    refine ⟨hrest.1, ?_, hrest.2.2.1, hrest.2.2.2⟩
    rw [hrest.2.1]
    simp

/-- Once the queue is drained the combined state no longer changes the
monitor: idle write after idle write, nothing valid on the wire. -/
lemma qIter_settled (st : QSim) (hdrv : st.drv = ⟨[], none, 0, .qidle, true⟩)
    (hsv : st.sig.valid = false) : ∀ m,
      (qIter st m).drv = st.drv ∧ (qIter st m).mon = st.mon ∧
        (qIter st m).sig.valid = false := by
  intro m
  induction m with
  | zero => exact ⟨rfl, rfl, hsv⟩
  | succ m ih =>
    rw [qIter, qSimStep, monStep_notValid _ _ ih.2.2, ih.2.1]
    rw [ih.1, hdrv]
    simp [qStep, idleWrite]

/-- C5: with `N` packets enqueued up front, the drain task removes them in
FIFO order — after `packetEdges ps` clock edges (and at any later time) the
queue is empty (`get_queue_size = 0`) and the always-ready sink has collected
exactly the `N` packets, word lists and metadata in enqueue order; moreover at
every moment `get_queue_size` is the number of not-yet-started packets plus
one when a packet is in flight. -/
theorem queue_drain (ps : List Pkt) (hps : ∀ p ∈ ps, p.words ≠ []) (m : Nat) :
    get_queue_size (qRun ps (packetEdges ps + m)).drv = 0 ∧
      (qRun ps (packetEdges ps + m)).mon.packets = ps.map (fun p => p.words) ∧
      (qRun ps (packetEdges ps + m)).mon.metadata
        = ps.map (fun p => (p.empty_last, if p.error then 1 else 0)) ∧
      (∀ k, get_queue_size (qRun ps k).drv
        = (qRun ps k).drv.packet_queue.length
          + (if (qRun ps k).drv.current_packet.isSome then 1 else 0)) := by
  have hdrain := qIter_drain ps hps mon0 sig0 rfl rfl rfl rfl
  rw [qRun, qIter_add]
  have hset := qIter_settled (qIter ⟨sig0, ⟨ps, none, 0, .qidle, true⟩, mon0⟩
      (packetEdges ps)) hdrain.1 hdrain.2.2.1 m
  refine ⟨?_, ?_, ?_, fun k => rfl⟩
  · rw [hset.1, hdrain.1]
    rfl
  · rw [hset.2.1, hdrain.2.1]
    simp [mon0]
  · rw [hset.2.1, hdrain.2.1]
    simp [mon0]

/-- C5 witness: two concrete packets drain in order within 5 edges. -/
theorem queue_drain_witness :
    get_queue_size (qRun [⟨[1, 2], 0, false⟩, ⟨[3], 1, true⟩] 5).drv = 0 ∧
      (qRun [⟨[1, 2], 0, false⟩, ⟨[3], 1, true⟩] 5).mon.packets = [[1, 2], [3]] ∧
      (qRun [⟨[1, 2], 0, false⟩, ⟨[3], 1, true⟩] 5).mon.metadata = [(0, 0), (1, 1)] := by
  have h := queue_drain [⟨[1, 2], 0, false⟩, ⟨[3], 1, true⟩] (by decide) 0
  exact ⟨h.1, h.2.1, h.2.2.1⟩

/-! ### Backpressure transparency (claim C2) -/

/-- C2 counterexample: the duplicate-suppression heuristic of the pattern
branch is not content-transparent.  The packet `[5, 5]` driven against the
pattern `[(1, true)]` (permanently ready) is collected as `[5]`, while the
always-ready sink collects `[5, 5]`: the collected word list differs between
the two readiness modes for the same packet. -/
theorem backpressure_transparency_counterexample :
    (bpRun ⟨[5, 5], 0, false⟩ [(1, true)] 6).mon.packets = [[5]] ∧
      (c1Run ⟨[5, 5], 0, false⟩ 6).mon.packets = [[5, 5]] ∧
      (bpRun ⟨[5, 5], 0, false⟩ [(1, true)] 6).mon.packets
        ≠ (c1Run ⟨[5, 5], 0, false⟩ 6).mon.packets := by
  refine ⟨by decide, by decide, by decide⟩

/-- No two consecutive words of the list are equal (the condition under which
the duplicate-suppression heuristic of the pattern branch is lossless). -/
def adjacentDistinct (l : List Nat) : Prop :=
  ∀ i, i < l.length - 1 → l.getD i 0 ≠ l.getD (i + 1) 0

instance adjacentDistinct_decidable (l : List Nat) : Decidable (adjacentDistinct l) :=
  Nat.decidableBallLT _ _

/-- Word-`i` signals with an arbitrary current ready level. -/
def wordSigR (p : Pkt) (i : Nat) (b : Bool) : Sig :=
  { wordSig p i with ready := b }

/-- Invariant of the pattern follower: the segment index is in range, the
elapsed cycle count is below the current segment's hold count, and the ready
level on the wire is the current segment's level. -/
def PatInv (pattern : List (Nat × Bool)) (st : BPSim) : Prop :=
  st.pat.pattern_idx < pattern.length ∧
    st.pat.cycles_in_pattern < (pattern.getD st.pat.pattern_idx (0, false)).1 ∧
    st.sig.ready = (pattern.getD st.pat.pattern_idx (0, false)).2

lemma drvStep_ready (p : Pkt) (r : Bool) (ds : DrvState × Sig) :
    ((drvStep p r ds).2).ready = ds.2.ready := by
  rcases ds with ⟨st, s⟩
  cases st <;> simp [drvStep, wordWrite, idleWrite] <;> split_ifs <;>
    simp [wordWrite, idleWrite]

lemma getD_mem {pattern : List (Nat × Bool)} {i : Nat} (h : i < pattern.length) :
    pattern.getD i (0, false) ∈ pattern := by
  rw [List.getD_eq_getElem _ _ h]
  exact List.getElem_mem h

lemma bpRun_succ_pat (p : Pkt) (pattern : List (Nat × Bool)) (k : Nat) :
    (bpRun p pattern (k + 1)).pat = (patStep pattern (bpRun p pattern k).pat).1 := rfl

lemma bpRun_succ_ready (p : Pkt) (pattern : List (Nat × Bool)) (k : Nat) :
    (bpRun p pattern (k + 1)).sig.ready
      = (match (patStep pattern (bpRun p pattern k).pat).2 with
          | some b => b
          | none => (bpRun p pattern k).sig.ready) := by
  show (readyPatch (patStep pattern (bpRun p pattern k).pat).2
      (drvStep p (bpRun p pattern k).sig.ready
        ((bpRun p pattern k).drv, (bpRun p pattern k).sig)).2).ready = _
  cases (patStep pattern (bpRun p pattern k).pat).2 with
  | some b => rfl
  | none => simp [readyPatch, drvStep_ready]

lemma patStep_adv (pattern : List (Nat × Bool)) (ps : PatState)
    (hidx : ps.pattern_idx < pattern.length)
    (hc : (pattern.getD ps.pattern_idx (0, false)).1 ≤ ps.cycles_in_pattern + 1)
    (h2 : ps.pattern_idx + 1 < pattern.length) :
    patStep pattern ps
      = (⟨ps.pattern_idx + 1, 0⟩, some (pattern.getD (ps.pattern_idx + 1) (0, false)).2) := by
  rw [List.getD_eq_getElem _ _ hidx] at hc
  simp [patStep, hidx, hc, h2]

lemma patStep_wrap (a : Nat × Bool) (t : List (Nat × Bool)) (ps : PatState)
    (hidx : ps.pattern_idx < (a :: t).length)
    (hc : ((a :: t).getD ps.pattern_idx (0, false)).1 ≤ ps.cycles_in_pattern + 1)
    (h2 : ¬(ps.pattern_idx + 1 < (a :: t).length)) :
    patStep (a :: t) ps = (⟨0, 0⟩, some a.2) := by
  rw [List.getD_eq_getElem _ _ hidx] at hc
  have h2' : ¬ps.pattern_idx < t.length := by simp at h2 ⊢; omega
  have hidx' : ps.pattern_idx < t.length + 1 := by simpa using hidx
  simp [patStep, hidx', hc, h2', List.getElem?_eq_getElem]

lemma patStep_hold (pattern : List (Nat × Bool)) (ps : PatState)
    (hidx : ps.pattern_idx < pattern.length)
    (hc : ¬((pattern.getD ps.pattern_idx (0, false)).1 ≤ ps.cycles_in_pattern + 1)) :
    patStep pattern ps = (⟨ps.pattern_idx, ps.cycles_in_pattern + 1⟩, none) := by
  rw [List.getD_eq_getElem _ _ hidx] at hc
  simp [patStep, hidx, hc]

lemma bpRun_patInv (p : Pkt) (pattern : List (Nat × Bool))
    (hpne : pattern ≠ []) (hpos : ∀ seg ∈ pattern, 0 < seg.1) :
    ∀ k, PatInv pattern (bpRun p pattern k) := by
  intro k
  induction k with
  | zero =>
    have hlen : 0 < pattern.length := List.length_pos.mpr hpne
    refine ⟨hlen, hpos _ (getD_mem hlen), ?_⟩
    show (pattern.headD (0, false)).2 = _
    cases pattern with
    | nil => exact absurd rfl hpne
    | cons a t => rfl
  | succ k ih =>
    obtain ⟨hidx, hcyc, hrdy⟩ := ih
    have hpat1 := bpRun_succ_pat p pattern k
    have hrdy1 := bpRun_succ_ready p pattern k
    by_cases hadv : (pattern.getD (bpRun p pattern k).pat.pattern_idx (0, false)).1
        ≤ (bpRun p pattern k).pat.cycles_in_pattern + 1
    · by_cases h2 : (bpRun p pattern k).pat.pattern_idx + 1 < pattern.length
      · rw [patStep_adv pattern _ hidx hadv h2] at hpat1 hrdy1
        exact ⟨by rw [hpat1]; exact h2,
          by rw [hpat1]; exact hpos _ (getD_mem h2),
          by rw [hrdy1, hpat1]⟩
      · cases pattern with
        | nil => exact absurd rfl hpne
        | cons a t =>
          rw [patStep_wrap a t _ hidx hadv h2] at hpat1 hrdy1
          refine ⟨by rw [hpat1]; simp, ?_, ?_⟩
          · rw [hpat1]
            exact hpos _ (getD_mem (by simp))
          · rw [hrdy1, hpat1]
            rfl
    · rw [patStep_hold pattern _ hidx hadv] at hpat1 hrdy1
      have hidx1 : (bpRun p pattern (k + 1)).pat.pattern_idx
          = (bpRun p pattern k).pat.pattern_idx := by rw [hpat1]
      have hcyc1 : (bpRun p pattern (k + 1)).pat.cycles_in_pattern
          = (bpRun p pattern k).pat.cycles_in_pattern + 1 := by rw [hpat1]
      refine ⟨by rw [hidx1]; exact hidx, by rw [hidx1, hcyc1]; omega, ?_⟩
      rw [hrdy1, hidx1]
      exact hrdy

/-- Cyclic successor of a segment index. -/
def nextIdx (len i : Nat) : Nat := if i + 1 < len then i + 1 else 0

lemma mod_succ_mod (a len : Nat) : (a + 1) % len = (a % len + 1) % len := by
  conv_lhs => rw [← Nat.div_add_mod a len]
  rw [Nat.add_assoc, Nat.mul_add_mod]

lemma nextIdx_mod (len a : Nat) (hlen : 0 < len) :
    nextIdx len (a % len) = (a + 1) % len := by
  have hx : a % len < len := Nat.mod_lt _ hlen
  rw [mod_succ_mod]
  by_cases h1 : a % len + 1 < len
  · rw [nextIdx, if_pos h1, Nat.mod_eq_of_lt h1]
  · have hh : a % len + 1 = len := by omega
    rw [nextIdx, if_neg h1, hh, Nat.mod_self]

lemma pat_advance_once (p : Pkt) (pattern : List (Nat × Bool))
    (hpne : pattern ≠ []) (hpos : ∀ seg ∈ pattern, 0 < seg.1) :
    ∀ n k, (pattern.getD (bpRun p pattern k).pat.pattern_idx (0, false)).1
        - (bpRun p pattern k).pat.cycles_in_pattern ≤ n →
      ∃ d, 0 < d ∧ (bpRun p pattern (k + d)).pat
        = ⟨nextIdx pattern.length (bpRun p pattern k).pat.pattern_idx, 0⟩ := by
  intro n
  induction n with
  | zero =>
    intro k hn
    obtain ⟨hidx, hcyc, -⟩ := bpRun_patInv p pattern hpne hpos k
    omega
  | succ n ih =>
    intro k hn
    obtain ⟨hidx, hcyc, -⟩ := bpRun_patInv p pattern hpne hpos k
    have hpat1 := bpRun_succ_pat p pattern k
    by_cases hadv : (pattern.getD (bpRun p pattern k).pat.pattern_idx (0, false)).1
        ≤ (bpRun p pattern k).pat.cycles_in_pattern + 1
    · refine ⟨1, Nat.one_pos, ?_⟩
      by_cases h2 : (bpRun p pattern k).pat.pattern_idx + 1 < pattern.length
      · rw [hpat1, patStep_adv pattern _ hidx hadv h2]
        simp [nextIdx, h2]
      · cases pattern with
        | nil => exact absurd rfl hpne
        | cons a t =>
          rw [hpat1, patStep_wrap a t _ hidx hadv h2]
          have h2' : ¬(bpRun p (a :: t) k).pat.pattern_idx < t.length := by
            simp at h2 ⊢
            omega
          simp [nextIdx, h2']
    · rw [patStep_hold pattern _ hidx hadv] at hpat1
      have hidx1 : (bpRun p pattern (k + 1)).pat.pattern_idx
          = (bpRun p pattern k).pat.pattern_idx := by rw [hpat1]
      have hcyc1 : (bpRun p pattern (k + 1)).pat.cycles_in_pattern
          = (bpRun p pattern k).pat.cycles_in_pattern + 1 := by rw [hpat1]
      have hm : (pattern.getD (bpRun p pattern (k + 1)).pat.pattern_idx (0, false)).1
          - (bpRun p pattern (k + 1)).pat.cycles_in_pattern ≤ n := by
        rw [hidx1, hcyc1]
        omega
      obtain ⟨d, hd, hreach⟩ := ih (k + 1) hm
      refine ⟨1 + d, by omega, ?_⟩
      have hk : k + (1 + d) = (k + 1) + d := by omega
      rw [hk, hreach, hidx1]

lemma pat_reach (p : Pkt) (pattern : List (Nat × Bool))
    (hpne : pattern ≠ []) (hpos : ∀ seg ∈ pattern, 0 < seg.1) :
    ∀ t k, ∃ d, (bpRun p pattern (k + d)).pat.pattern_idx
        = ((bpRun p pattern k).pat.pattern_idx + t) % pattern.length := by
  have hlen : 0 < pattern.length := List.length_pos.mpr hpne
  intro t
  induction t with
  | zero =>
    intro k
    obtain ⟨hidx, -, -⟩ := bpRun_patInv p pattern hpne hpos k
    exact ⟨0, by rw [Nat.add_zero, Nat.add_zero, Nat.mod_eq_of_lt hidx]⟩
  | succ t ih =>
    intro k
    obtain ⟨d1, h1⟩ := ih k
    obtain ⟨d2, hd2, h2⟩ := pat_advance_once p pattern hpne hpos
      ((pattern.getD (bpRun p pattern (k + d1)).pat.pattern_idx (0, false)).1
        - (bpRun p pattern (k + d1)).pat.cycles_in_pattern) (k + d1) le_rfl
    refine ⟨d1 + d2, ?_⟩
    have hk : k + (d1 + d2) = (k + d1) + d2 := by omega
    rw [hk, h2]
    show nextIdx pattern.length ((bpRun p pattern (k + d1)).pat.pattern_idx) = _
    rw [h1, nextIdx_mod pattern.length _ hlen, ← Nat.add_assoc]

lemma ready_eventually (p : Pkt) (pattern : List (Nat × Bool))
    (hpne : pattern ≠ []) (hpos : ∀ seg ∈ pattern, 0 < seg.1)
    (htrue : ∃ seg ∈ pattern, seg.2 = true) :
    ∀ k, ∃ d, (bpRun p pattern (k + d)).sig.ready = true := by
  have hlen : 0 < pattern.length := List.length_pos.mpr hpne
  obtain ⟨seg, hmem, hlev⟩ := htrue
  obtain ⟨j, hj, hget⟩ := List.mem_iff_getElem.mp hmem
  intro k
  obtain ⟨hidxk, -, -⟩ := bpRun_patInv p pattern hpne hpos k
  obtain ⟨d, hd⟩ := pat_reach p pattern hpne hpos
    (j + pattern.length - (bpRun p pattern k).pat.pattern_idx) k
  have harith : (bpRun p pattern k).pat.pattern_idx
      + (j + pattern.length - (bpRun p pattern k).pat.pattern_idx)
      = j + pattern.length := by omega
  rw [harith, Nat.add_mod_right, Nat.mod_eq_of_lt hj] at hd
  obtain ⟨hidx, -, hrdy⟩ := bpRun_patInv p pattern hpne hpos (k + d)
  refine ⟨d, ?_⟩
  rw [hrdy, hd, List.getD_eq_getElem _ _ hj, hget, hlev]

/-- Invariant of the backpressure round trip while word `i` is on the wire:
the driver is in `sending i`, the signals show word `i` (at the current
pattern-written ready level), no packet has been collected yet, the monitor
holds exactly words `0..i-1`, and for `i ≥ 1` the last recorded data value is
word `i-1`. -/
def bpInv (p : Pkt) (i : Nat) (st : BPSim) : Prop :=
  i < p.words.length ∧ st.drv = .sending i ∧ (∃ b, st.sig = wordSigR p i b) ∧
    ((i = 0 ∧ st.mon = bpMon0) ∨
      (0 < i ∧ ∃ lv, st.mon
        = ⟨[], p.words.take i, true, some (p.words.getD (i - 1) 0), lv⟩))

/-- The backpressure round trip after the packet has been fully collected:
driver idle, nothing valid on the wire, exactly the sent packet collected. -/
def bpSettled (p : Pkt) (st : BPSim) : Prop :=
  (st.drv = .finishing ∨ st.drv = .done) ∧ st.sig.valid = false ∧
    st.mon.packets = [p.words]

lemma bpRun_succ_drv (p : Pkt) (pattern : List (Nat × Bool)) (k : Nat) :
    (bpRun p pattern (k + 1)).drv
      = (drvStep p (bpRun p pattern k).sig.ready
          ((bpRun p pattern k).drv, (bpRun p pattern k).sig)).1 := rfl

lemma bpRun_succ_mon (p : Pkt) (pattern : List (Nat × Bool)) (k : Nat) :
    (bpRun p pattern (k + 1)).mon
      = bpStep (bpRun p pattern k).sig (bpRun p pattern k).mon := rfl

lemma bpRun_succ_sig (p : Pkt) (pattern : List (Nat × Bool)) (k : Nat) :
    (bpRun p pattern (k + 1)).sig
      = readyPatch (patStep pattern (bpRun p pattern k).pat).2
          (drvStep p (bpRun p pattern k).sig.ready
            ((bpRun p pattern k).drv, (bpRun p pattern k).sig)).2 := rfl

lemma wordWrite_eq_wordSigR (p : Pkt) (i : Nat) (s : Sig) :
    wordWrite p i s = wordSigR p i s.ready := rfl

lemma readyPatch_wordSigR (w : Option Bool) (p : Pkt) (i : Nat) (b : Bool) :
    ∃ c, readyPatch w (wordSigR p i b) = wordSigR p i c := by
  cases w with
  | some b2 => exact ⟨b2, rfl⟩
  | none => exact ⟨b, rfl⟩

lemma readyPatch_valid (w : Option Bool) (s : Sig) :
    (readyPatch w s).valid = s.valid := by
  cases w <;> rfl

lemma take_full (p : Pkt) (i : Nat) (h : i + 1 = p.words.length) :
    p.words.take i ++ [p.words.getD i 0] = p.words := by
  rw [← take_succ_getD (by omega), h, List.take_length]

lemma bpInv_start (p : Pkt) (pattern : List (Nat × Bool)) (hne : p.words ≠ []) :
    bpInv p 0 (bpRun p pattern 1) := by
  have hd := bpRun_succ_drv p pattern 0
  have hs := bpRun_succ_sig p pattern 0
  have hm := bpRun_succ_mon p pattern 0
  refine ⟨List.length_pos.mpr hne, ?_, ?_, Or.inl ⟨rfl, ?_⟩⟩
  · rw [hd]
    show (drvStep p (bpSim0 pattern).sig.ready (.start, (bpSim0 pattern).sig)).1 = _
    simp [drvStep, List.isEmpty_iff, hne]
  · rw [hs]
    show ∃ b, readyPatch (patStep pattern (bpSim0 pattern).pat).2
        (drvStep p (bpSim0 pattern).sig.ready (.start, (bpSim0 pattern).sig)).2 = _
    have hds : (drvStep p (bpSim0 pattern).sig.ready (.start, (bpSim0 pattern).sig)).2
        = wordSigR p 0 (bpSim0 pattern).sig.ready := by
      simp [drvStep, List.isEmpty_iff, hne, wordWrite_eq_wordSigR]
    rw [hds]
    exact readyPatch_wordSigR _ p 0 _
  · rw [hm]
    show bpStep (bpSim0 pattern).sig bpMon0 = bpMon0
    simp [bpStep, bpSim0, sigInit, bpMon0]

lemma bpInv_hold (p : Pkt) (pattern : List (Nat × Bool)) (i k : Nat)
    (hinv : bpInv p i (bpRun p pattern k))
    (hr : (bpRun p pattern k).sig.ready = false) :
    bpInv p i (bpRun p pattern (k + 1)) := by
  obtain ⟨hi, hd, ⟨b, hsig⟩, hm⟩ := hinv
  have hb : b = false := by rw [hsig] at hr; exact hr
  subst hb
  have hds : drvStep p (bpRun p pattern k).sig.ready
      ((bpRun p pattern k).drv, (bpRun p pattern k).sig)
      = (.sending i, wordSigR p i false) := by
    rw [hd, hsig]
    simp [drvStep, wordSigR]
  refine ⟨hi, ?_, ?_, ?_⟩
  · rw [bpRun_succ_drv, hds]
  · rw [bpRun_succ_sig, hds]
    exact readyPatch_wordSigR _ p i false
  · rw [bpRun_succ_mon, hsig]
    rcases hm with ⟨h0, hmon⟩ | ⟨h0, lv, hmon⟩
    · refine Or.inl ⟨h0, ?_⟩
      rw [hmon]
      simp [bpStep, wordSigR, bpMon0]
    · refine Or.inr ⟨h0, false, ?_⟩
      rw [hmon]
      simp [bpStep, wordSigR]

lemma bpInv_advance (p : Pkt) (pattern : List (Nat × Bool)) (i k : Nat)
    (hadj : adjacentDistinct p.words)
    (hinv : bpInv p i (bpRun p pattern k))
    (hr : (bpRun p pattern k).sig.ready = true)
    (hlt : i + 1 < p.words.length) :
    bpInv p (i + 1) (bpRun p pattern (k + 1)) := by
  obtain ⟨hi, hd, ⟨b, hsig⟩, hm⟩ := hinv
  have hb : b = true := by rw [hsig] at hr; exact hr
  subst hb
  have hds : drvStep p (bpRun p pattern k).sig.ready
      ((bpRun p pattern k).drv, (bpRun p pattern k).sig)
      = (.sending (i + 1), wordSigR p (i + 1) true) := by
    rw [hd, hsig]
    show drvStep p true (.sending i, wordSigR p i true) = _
    simp [drvStep, hlt, wordWrite_eq_wordSigR]
    rfl
  refine ⟨hlt, ?_, ?_, ?_⟩
  · rw [bpRun_succ_drv, hds]
  · rw [bpRun_succ_sig, hds]
    exact readyPatch_wordSigR _ p (i + 1) true
  · rw [bpRun_succ_mon, hsig]
    have heop : ¬(i = p.words.length - 1) := by omega
    refine Or.inr ⟨by omega, true, ?_⟩
    rcases hm with ⟨h0, hmon⟩ | ⟨h0, lv, hmon⟩
    · subst h0
      rw [hmon]
      simp [bpStep, bpCollectWord, wordSigR, wordSig, wordWrite, sig0, bpMon0, heop,
        take_succ_getD (show 0 < p.words.length by omega)]
    · have hsop : ¬(i = 0) := by omega
      have hchg : p.words.getD i 0 ≠ p.words.getD (i - 1) 0 := by
        have := hadj (i - 1) (by omega)
        rw [show i - 1 + 1 = i by omega] at this
        exact fun hcontra => this hcontra.symm
      simp only [List.getD, List.get?_eq_getElem?] at hchg
      rw [hmon]
      simp [bpStep, bpCollectWord, wordSigR, wordSig, wordWrite, sig0, heop, hsop,
        hchg, take_succ_getD hi, show i + 1 - 1 = i by omega]

lemma bpSettled_close (p : Pkt) (pattern : List (Nat × Bool)) (i k : Nat)
    (hadj : adjacentDistinct p.words)
    (hinv : bpInv p i (bpRun p pattern k))
    (hr : (bpRun p pattern k).sig.ready = true)
    (hlast : i + 1 = p.words.length) :
    bpSettled p (bpRun p pattern (k + 1)) := by
  obtain ⟨hi, hd, ⟨b, hsig⟩, hm⟩ := hinv
  have hb : b = true := by rw [hsig] at hr; exact hr
  subst hb
  have hds : drvStep p (bpRun p pattern k).sig.ready
      ((bpRun p pattern k).drv, (bpRun p pattern k).sig)
      = (.finishing, idleWrite (wordSigR p i true)) := by
    rw [hd, hsig]
    show drvStep p true (.sending i, wordSigR p i true) = _
    simp [drvStep, show ¬(i + 1 < p.words.length) by omega]
  have hluse : p.words.length - 1 = i := by omega
  refine ⟨Or.inl (by rw [bpRun_succ_drv, hds]), ?_, ?_⟩
  · rw [bpRun_succ_sig, hds, readyPatch_valid]
    rfl
  · rw [bpRun_succ_mon, hsig]
    rcases hm with ⟨h0, hmon⟩ | ⟨h0, lv, hmon⟩
    · subst h0
      rw [hmon]
      have hw : [p.words.getD 0 0] = p.words := by
        have := take_full p 0 hlast
        simpa using this
      simp only [List.getD, List.get?_eq_getElem?] at hw
      simp [bpStep, bpCollectWord, wordSigR, wordSig, wordWrite, sig0, bpMon0, hluse, hw]
    · have hsop : ¬(i = 0) := by omega
      have hchg : p.words.getD i 0 ≠ p.words.getD (i - 1) 0 := by
        have := hadj (i - 1) (by omega)
        rw [show i - 1 + 1 = i by omega] at this
        exact fun hcontra => this hcontra.symm
      simp only [List.getD, List.get?_eq_getElem?] at hchg
      have htf := take_full p i hlast
      simp only [List.getD, List.get?_eq_getElem?] at htf
      rw [hmon]
      simp [bpStep, bpCollectWord, wordSigR, wordSig, wordWrite, sig0, hluse, hsop,
        hchg, htf]

lemma bpSettled_step (p : Pkt) (pattern : List (Nat × Bool)) (k : Nat)
    (h : bpSettled p (bpRun p pattern k)) : bpSettled p (bpRun p pattern (k + 1)) := by
  obtain ⟨hd, hv, hpk⟩ := h
  have hds : (drvStep p (bpRun p pattern k).sig.ready
      ((bpRun p pattern k).drv, (bpRun p pattern k).sig))
      = (.done, (bpRun p pattern k).sig) := by
    rcases hd with hd | hd <;> rw [hd] <;> simp [drvStep]
  refine ⟨Or.inr (by rw [bpRun_succ_drv, hds]), ?_, ?_⟩
  · rw [bpRun_succ_sig, hds, readyPatch_valid]
    exact hv
  · rw [bpRun_succ_mon]
    simp only [bpStep, hv, Bool.false_and, Bool.false_eq_true, if_false]
    exact hpk

lemma bpInv_until (p : Pkt) (pattern : List (Nat × Bool)) :
    ∀ d k i, bpInv p i (bpRun p pattern k) →
      (bpRun p pattern (k + d)).sig.ready = true →
      ∃ e, e ≤ d ∧ bpInv p i (bpRun p pattern (k + e)) ∧
        (bpRun p pattern (k + e)).sig.ready = true := by
  intro d
  induction d with
  | zero =>
    intro k i hi hr
    exact ⟨0, le_rfl, by simpa using hi, by simpa using hr⟩
  | succ d ih =>
    intro k i hi hr
    by_cases h0 : (bpRun p pattern k).sig.ready = true
    · exact ⟨0, Nat.zero_le _, by simpa using hi, by simpa using h0⟩
    · have hf : (bpRun p pattern k).sig.ready = false := by
        rw [← Bool.not_eq_true]
        exact h0
      have hi1 := bpInv_hold p pattern i k hi hf
      have hr2 : (bpRun p pattern ((k + 1) + d)).sig.ready = true := by
        rw [show (k + 1) + d = k + (d + 1) by omega]
        exact hr
      obtain ⟨e, he, h1, h2⟩ := ih (k + 1) i hi1 hr2
      refine ⟨e + 1, by omega, ?_, ?_⟩
      · rw [show k + (e + 1) = (k + 1) + e by omega]
        exact h1
      · rw [show k + (e + 1) = (k + 1) + e by omega]
        exact h2

lemma bpWord_progress (p : Pkt) (pattern : List (Nat × Bool))
    (hadj : adjacentDistinct p.words) (hpne : pattern ≠ [])
    (hpos : ∀ seg ∈ pattern, 0 < seg.1) (htrue : ∃ seg ∈ pattern, seg.2 = true) :
    ∀ i k, bpInv p i (bpRun p pattern k) →
      ∃ q, (if i + 1 < p.words.length then bpInv p (i + 1) (bpRun p pattern q)
        else bpSettled p (bpRun p pattern q)) := by
  intro i k hi
  obtain ⟨d, hd⟩ := ready_eventually p pattern hpne hpos htrue k
  obtain ⟨e, -, h1, h2⟩ := bpInv_until p pattern d k i hi hd
  by_cases hlt : i + 1 < p.words.length
  · exact ⟨k + e + 1, by
      rw [if_pos hlt]
      exact bpInv_advance p pattern i (k + e) hadj h1 h2 hlt⟩
  · have hlast : i + 1 = p.words.length := by
      have hiw := h1.1
      omega
    exact ⟨k + e + 1, by
      rw [if_neg hlt]
      exact bpSettled_close p pattern i (k + e) hadj h1 h2 hlast⟩

lemma bpRun_settles (p : Pkt) (pattern : List (Nat × Bool))
    (hne : p.words ≠ []) (hadj : adjacentDistinct p.words) (hpne : pattern ≠ [])
    (hpos : ∀ seg ∈ pattern, 0 < seg.1) (htrue : ∃ seg ∈ pattern, seg.2 = true) :
    ∃ K, bpSettled p (bpRun p pattern K) := by
  have main : ∀ j i k, bpInv p i (bpRun p pattern k) →
      p.words.length - (i + 1) ≤ j → ∃ K, bpSettled p (bpRun p pattern K) := by
    intro j
    induction j with
    | zero =>
      intro i k hi hj
      obtain ⟨q, hq⟩ := bpWord_progress p pattern hadj hpne hpos htrue i k hi
      have hiw := hi.1
      rw [if_neg (by omega)] at hq
      exact ⟨q, hq⟩
    | succ j ih =>
      intro i k hi hj
      by_cases hlt : i + 1 < p.words.length
      · obtain ⟨q, hq⟩ := bpWord_progress p pattern hadj hpne hpos htrue i k hi
        rw [if_pos hlt] at hq
        exact ih (i + 1) q hq (by omega)
      · obtain ⟨q, hq⟩ := bpWord_progress p pattern hadj hpne hpos htrue i k hi
        rw [if_neg hlt] at hq
        exact ⟨q, hq⟩
  exact main p.words.length 0 1 (bpInv_start p pattern hne) (by omega)

lemma bpSettled_forever (p : Pkt) (pattern : List (Nat × Bool)) (K : Nat)
    (hK : bpSettled p (bpRun p pattern K)) :
    ∀ m, bpSettled p (bpRun p pattern (K + m)) := by
  intro m
  induction m with
  | zero => simpa using hK
  | succ m ih =>
    rw [show K + (m + 1) = (K + m) + 1 by omega]
    exact bpSettled_step p pattern _ ih

/-- C2 (amended): for a packet whose consecutive words are pairwise distinct
and a backpressure pattern that is non-empty, has positive hold counts and
asserts ready in at least one segment, the pattern-driven
`AvalonSTSinkWithBackpressure.run` eventually collects exactly the word list
collected under always-ready readiness — both histories settle to exactly
`[P.words]`; only the timing of acceptance differs.  (The distinctness
hypothesis is forced by the duplicate-suppression heuristic, which drops an
accepted repeat of the previous word — see the counterexample; a pattern with
a ready segment is required for the transfer to complete at all.) -/
theorem backpressure_transparency (p : Pkt) (pattern : List (Nat × Bool))
    (hne : p.words ≠ []) (hadj : adjacentDistinct p.words)
    (hpne : pattern ≠ []) (hpos : ∀ seg ∈ pattern, 0 < seg.1)
    (htrue : ∃ seg ∈ pattern, seg.2 = true) :
    ∃ K, ∀ m,
      (bpRun p pattern (K + m)).mon.packets = [p.words] ∧
        (c1Run p (K + m)).mon.packets = [p.words] := by
  obtain ⟨K0, hK0⟩ := bpRun_settles p pattern hne hadj hpne hpos htrue
  refine ⟨K0 + (p.words.length + 1), fun m => ⟨?_, ?_⟩⟩
  · have h1 : bpSettled p (bpRun p pattern (K0 + ((p.words.length + 1) + m))) :=
      bpSettled_forever p pattern K0 hK0 _
    rw [show K0 + (p.words.length + 1) + m = K0 + ((p.words.length + 1) + m) by omega]
    exact h1.2.2
  · have hm := (c1Run_settled p hne (K0 + m)).1
    rw [show K0 + (p.words.length + 1) + m = p.words.length + 1 + (K0 + m) by omega, hm]
    rfl

/-- C2 witness: the amended transparency at a concrete distinct-word packet
and a concrete stall-then-accept pattern. -/
theorem backpressure_transparency_witness :
    ∃ K, ∀ m,
      (bpRun ⟨[1, 2], 0, false⟩ [(2, false), (1, true)] (K + m)).mon.packets = [[1, 2]] ∧
        (c1Run ⟨[1, 2], 0, false⟩ (K + m)).mon.packets = [[1, 2]] :=
  backpressure_transparency ⟨[1, 2], 0, false⟩ [(2, false), (1, true)]
    (by decide) (by decide) (by decide) (by decide) (by decide)

end PacketMux
